import Mathlib

/-!
Verification development for the MoneyGrowAI ticker-discovery service
(`src/ticker_discovery/ticker_discovery_service.py`).

The service is embedded shallowly: the regex matchers are hand-translated
to executable scanners with Python `re` semantics (leftmost match,
non-overlapping continuation at the match end, greedy quantifiers with
backtracking, ASCII word boundaries); the per-process dict cache is an
association list threaded explicitly together with an integer clock;
the external Yahoo search call is an oracle `String → Option SearchResponse`
where `none` models a transport failure / timeout / non-success status
(which the Python code turns into an exception via `raise_for_status`).

`html.unescape` inside `_clean` is modelled as the identity: every concrete
input appearing in the claims contains no HTML entity, and all universally
quantified statements range over arbitrary strings, which subsumes every
possible unescape output.
-/

namespace TickerDiscovery

/-! ## Character classes (ASCII, as used by the Python patterns) -/

/-- ASCII uppercase letter, the character class `[A-Z]` of the patterns. -/
def isUpperA (c : Char) : Bool := 'A' ≤ c && c ≤ 'Z'

/-- Python `\s` restricted to ASCII: space, tab, newline, carriage return,
vertical tab, form feed. -/
def isSpaceCh (c : Char) : Bool :=
  c == ' ' || c == '\t' || c == '\n' || c == '\r' || c == '\x0b' || c == '\x0c'

/-- Python `\w` restricted to ASCII: letters, digits, underscore. -/
def isWordCh (c : Char) : Bool := c.isAlpha || c.isDigit || c == '_'

/-- Delimiter class `[,\s;/]` of `_split_symbols`. -/
def isDelimCh (c : Char) : Bool := c == ',' || c == ';' || c == '/' || isSpaceCh c

/-- Length of the run of characters satisfying `p` starting at index `i`,
capped at the third argument (used for bounded quantifiers such as
`[A-Z]{1,5}`). -/
def runCap (p : Char → Bool) (cs : List Char) (i : Nat) : Nat → Nat
  | 0 => 0
  | k + 1 =>
    match cs[i]? with
    | some c => if p c then 1 + runCap p cs (i + 1) k else 0
    | none => 0

/-- Length of the maximal run of characters satisfying `p` starting at `i`. -/
def runAll (p : Char → Bool) (cs : List Char) (i : Nat) : Nat :=
  runCap p cs i cs.length

/-- Python `\b`: true iff exactly one of the two characters around position
`j` is a word character (positions outside the string count as non-word). -/
def boundaryAt (cs : List Char) (j : Nat) : Bool :=
  let pw := match j with
    | 0 => false
    | k + 1 => (cs[k]?.map isWordCh).getD false
  let nw := (cs[j]?.map isWordCh).getD false
  pw != nw

/-- The substring of `cs` from index `i` (inclusive) to `j` (exclusive). -/
def strSlice (cs : List Char) (i j : Nat) : String :=
  String.mk ((cs.drop i).take (j - i))

/-- Uppercase a string, Python `str.upper()` on ASCII. -/
def strUpper (s : String) : String := String.mk (s.toList.map Char.toUpper)

/-- Python `str.capitalize()`: first character uppercased, rest lowercased. -/
def capitalizeStr (s : String) : String :=
  match s.toList with
  | [] => ""
  | c :: rest => String.mk (c.toUpper :: rest.map Char.toLower)

/-! ## Association lists (the Python dicts `candidates`, `tallies`, `_cache`) -/

/-- First binding of key `k`, Python `d.get(k)`. -/
def getKey {α : Type} : List (String × α) → String → Option α
  | [], _ => none
  | e :: rest, k => if e.1 = k then some e.2 else getKey rest k

/-- Python `d[k] = v`: replace the binding in place, or append a new one. -/
def setKey {α : Type} : List (String × α) → String → α → List (String × α)
  | [], k, v => [(k, v)]
  | e :: rest, k, v => if e.1 = k then (k, v) :: rest else e :: setKey rest k v

/-- Python `d.pop(k, None)`: remove the binding of `k`. -/
def eraseKey {α : Type} (m : List (String × α)) (k : String) : List (String × α) :=
  m.filter (fun e => !(e.1 == k))

/-! ## Sorting (Python `sorted` on a set / on unique keys)

Python compares strings lexicographically by code point; `listLtB` is that
comparison on the character lists.  (The core `String` order goes through
`String.ltb`, whose well-founded recursion does not reduce inside the
kernel, so the comparison is spelled out structurally here.) -/

def listLtB : List Char → List Char → Bool
  | _, [] => false
  | [], _ :: _ => true
  | a :: as, b :: bs => if a < b then true else if b < a then false else listLtB as bs

/-- Python string `<`. -/
def strLtB (a b : String) : Bool := listLtB a.toList b.toList

/-- The strict ordering proposition used in the sortedness statements. -/
def sLt (a b : String) : Prop := strLtB a b = true

/-- Insert into a strictly sorted duplicate-free list, keeping it so. -/
def insSorted (x : String) : List String → List String
  | [] => [x]
  | y :: ys =>
    if strLtB x y then x :: y :: ys else if x = y then y :: ys else y :: insSorted x ys

/-- Model of Python `sorted(set(l))`: `sortedSet l` is Python `sorted(set(l))`: the strictly increasing
enumeration of the distinct elements of `l`. -/
def sortedSet (l : List String) : List String :=
  l.foldr insSorted []

/-- Insertion step for sorting key/value entries by key. -/
def insEntry {α : Type} (x : String × α) : List (String × α) → List (String × α)
  | [] => [x]
  | y :: ys => if strLtB x.1 y.1 then x :: y :: ys else y :: insEntry x ys

/-- Python `sorted(d.items())` for a dict with (unique) string keys. -/
def sortByKey {α : Type} (l : List (String × α)) : List (String × α) :=
  l.foldr insEntry []

/-- Insertion step for sorting plain strings (`x` goes in front of the
first element not below it). -/
def insStr (x : String) : List String → List String
  | [] => [x]
  | y :: ys => if strLtB y x = false then x :: y :: ys else y :: insStr x ys

/-- Python `sorted` on a list of strings. -/
def sortStrings (l : List String) : List String :=
  l.foldr insStr []

/-! ## Text normalisation -/

/-- Model of `re.sub(r"\s+", " ", s)`: each maximal whitespace run becomes one space.
The boolean flag records whether the previous character was whitespace. -/
def collapseWsAux : List Char → Bool → List Char
  | [], _ => []
  | c :: rest, prevWs =>
    if isSpaceCh c then
      if prevWs then collapseWsAux rest true else ' ' :: collapseWsAux rest true
    else c :: collapseWsAux rest false

/-- Python `str.strip()` (ASCII whitespace). -/
def stripWsChars (cs : List Char) : List Char :=
  ((cs.dropWhile isSpaceCh).reverse.dropWhile isSpaceCh).reverse

/-- Model of `_clean`: collapse whitespace runs then strip.  `html.unescape` is
modelled as the identity (see module docstring). -/
def _clean (cs : List Char) : List Char :=
  stripWsChars (collapseWsAux cs false)

/-- Python `joined.split("\n")`. -/
def splitNlAux : List Char → List Char → List (List Char)
  | [], acc => [acc.reverse]
  | c :: rest, acc =>
    if c = '\n' then acc.reverse :: splitNlAux rest [] else splitNlAux rest (c :: acc)

def splitNl (cs : List Char) : List (List Char) := splitNlAux cs []

/-- Model of `re.split(r"[,\s;/]+", s)`: tokens between maximal delimiter runs,
including the empty token at either edge when the string starts or ends
with a delimiter (exactly Python's behaviour). -/
def splitDelimsAux : List Char → List Char → Bool → List (List Char)
  | [], acc, _ => [acc.reverse]
  | c :: rest, acc, prevDelim =>
    if isDelimCh c then
      if prevDelim then splitDelimsAux rest [] true
      else acc.reverse :: splitDelimsAux rest [] true
    else splitDelimsAux rest (c :: acc) false

def splitDelims (cs : List Char) : List (List Char) := splitDelimsAux cs [] false

/-! ## The regex matchers

Each `...MatchAt cs i` decides whether the pattern matches anchored at
index `i`, returning the captured group of interest and the end index of
the whole match; `scan` then reproduces `re.finditer` (leftmost match,
continue at the match end). -/

/-- Greedy `(?:\.[A-Z]{1,2})?` followed by `\b`, anchored at a
position `p` holding a dot.  Tries two suffix letters, then one, in
Python's backtracking order; returns the match end on success. -/
def dotSuffixEnd (cs : List Char) (p : Nat) : Option Nat :=
  let b := runCap isUpperA cs (p + 1) 2
  if b ≥ 2 && boundaryAt cs (p + 3) then some (p + 3)
  else if b ≥ 1 && boundaryAt cs (p + 2) then some (p + 2)
  else none

/-- Backtracking over the body length of
`\$([A-Z]{1,5}(?:\.[A-Z]{1,2})?)\b` anchored at the
dollar sign at `i`; the argument is the current body length to try
(initially the run length capped at 5). -/
def cashtagTryK (cs : List Char) (i : Nat) : Nat → Option (String × Nat)
  | 0 => none
  | k + 1 =>
    let p := i + 1 + (k + 1)
    match (if cs[p]? = some '.' then dotSuffixEnd cs p else none) with
    | some e => some (strSlice cs (i + 1) e, e)
    | none =>
      if boundaryAt cs p then some (strSlice cs (i + 1) p, p)
      else cashtagTryK cs i k

/-- Pattern `CASHTAG` anchored at `i`; the capture includes the dot suffix. -/
def cashtagMatchAt (cs : List Char) (i : Nat) : Option (String × Nat) :=
  if cs[i]? = some '$' then cashtagTryK cs i (runCap isUpperA cs (i + 1) 5) else none

/-- The `(?::[A-Z]+)?\)` tail of `PAREN`, anchored at the colon at `p`.
`[A-Z]+` is greedy; giving letters back would put an uppercase letter where
`)` is required, so only the maximal run can succeed. -/
def parenColonEnd (cs : List Char) (p : Nat) : Option Nat :=
  let c := runAll isUpperA cs (p + 1)
  if c ≥ 1 && cs[p + 1 + c]? == some ')' then some (p + 1 + c + 1) else none

/-- Backtracking over the body length of
`\(([A-Z]{1,5})(?::[A-Z]+)?\)` anchored at the opening
parenthesis at `i`. -/
def parenTryK (cs : List Char) (i : Nat) : Nat → Option (String × Nat)
  | 0 => none
  | k + 1 =>
    let p := i + 1 + (k + 1)
    match (if cs[p]? = some ':' then parenColonEnd cs p else none) with
    | some e => some (strSlice cs (i + 1) (i + 1 + (k + 1)), e)
    | none =>
      if cs[p]? = some ')' then some (strSlice cs (i + 1) (i + 1 + (k + 1)), p + 1)
      else parenTryK cs i k

/-- Pattern `PAREN` anchored at `i`; the capture is the letters only. -/
def parenMatchAt (cs : List Char) (i : Nat) : Option (String × Nat) :=
  if cs[i]? = some '(' then parenTryK cs i (runCap isUpperA cs (i + 1) 5) else none

/-- Case-sensitive literal at position `i`. -/
def litAt (cs : List Char) (i : Nat) : List Char → Bool
  | [] => true
  | c :: rest => cs[i]? == some c && litAt cs (i + 1) rest

/-- The `(quote|symbol|ticker)` alternation of `URL_TKR`: the literals have
pairwise distinct first characters, so at most one alternative matches. -/
def urlWordLen (cs : List Char) (i : Nat) : Option Nat :=
  if litAt cs i "quote".toList then some 5
  else if litAt cs i "symbol".toList then some 6
  else if litAt cs i "ticker".toList then some 6
  else none

/-- Pattern `URL_TKR` anchored at `i`: `/(quote|symbol|ticker)/` then the symbol
group `[A-Z]{1,5}(?:\.[A-Z]{1,2})?`.  Nothing follows
the group, so greedy quantifiers never backtrack; the capture is group 2. -/
def urlMatchAt (cs : List Char) (i : Nat) : Option (String × Nat) :=
  if cs[i]? = some '/' then
    match urlWordLen cs (i + 1) with
    | none => none
    | some w =>
      if cs[i + 1 + w]? = some '/' then
        let st := i + 2 + w
        let a := runCap isUpperA cs st 5
        if a ≥ 1 then
          let p := st + a
          if cs[p]? = some '.' then
            let b := runCap isUpperA cs (p + 1) 2
            if b ≥ 1 then some (strSlice cs st (p + 1 + b), p + 1 + b)
            else some (strSlice cs st p, p)
          else some (strSlice cs st p, p)
        else none
      else none
  else none

/-- Backtracking over the body length of
`\b([A-Z]{2,5})(?:\.[A-Z]{1,2})?\b` anchored at `i`;
the capture is group 1, which excludes the dot suffix (though the suffix is
consumed by the match). -/
def uppercTryK (cs : List Char) (i : Nat) : Nat → Option (String × Nat)
  | 0 => none
  | k + 1 =>
    if k = 0 then none
    else
      let p := i + (k + 1)
      match (if cs[p]? = some '.' then dotSuffixEnd cs p else none) with
      | some e => some (strSlice cs i (i + (k + 1)), e)
      | none =>
        if boundaryAt cs p then some (strSlice cs i (i + (k + 1)), p)
        else uppercTryK cs i k

/-- Pattern `UPPERC` anchored at `i`. -/
def uppercMatchAt (cs : List Char) (i : Nat) : Option (String × Nat) :=
  if boundaryAt cs i then uppercTryK cs i (runCap isUpperA cs i 5) else none

/-- Model of `re.finditer`: try each start position left to right; on a match,
record the capture and continue at the match end (all our patterns consume
at least one character, so the position strictly increases; the `max` only
documents this).  The fuel starts at `cs.length + 1`, one unit per possible
start position. -/
def scanAux (cs : List Char) (m : List Char → Nat → Option (String × Nat)) :
    Nat → Nat → List String
  | _, 0 => []
  | i, fuel + 1 =>
    if i > cs.length then []
    else
      match m cs i with
      | some (g, j) => g :: scanAux cs m (max (i + 1) j) fuel
      | none => scanAux cs m (i + 1) fuel

def scan (cs : List Char) (m : List Char → Nat → Option (String × Nat)) : List String :=
  scanAux cs m 0 (cs.length + 1)

/-! ## Symbol-shape validation and the stop-list -/

/-- The `STOP` set of the source, written as the token list of the source's
triple-quoted string (the duplicate `USD` is kept; membership is unaffected). -/
def STOP : List String :=
  ["AI", "CEO", "EPS", "ETF", "GDP", "USD", "IPO", "YOY", "EBIT", "EBITDA", "FCF",
   "FED", "SEC", "CPI", "PPI", "PE", "EV", "PS", "GAAP", "ADR", "OTC", "BTC", "ETH",
   "USD", "EUR", "NET", "FIG"]

/-- Model of the fullmatch against the symbol shape pattern.  The leading
letter run must be the whole string or be followed by a dot and one or two
letters reaching the end. -/
def shapeOk (s : String) : Bool :=
  let cs := s.toList
  let a := runAll isUpperA cs 0
  if a < 1 || 5 < a then false
  else
    match cs.drop a with
    | [] => true
    | c :: suf => c == '.' && suf.all isUpperA && (suf.length == 1 || suf.length == 2)

/-- Model of `_split_symbols`: strip, split on delimiter runs, uppercase each token,
keep the symbol-shaped ones.  Tokens contain no whitespace (whitespace is a
delimiter), so the per-token `strip()` of the source is a no-op. -/
def _split_symbols (s : List Char) : List String :=
  ((splitDelims (stripWsChars s)).map
    (fun t => String.mk (t.map Char.toUpper))).filter shapeOk

/-! ## ACTION lines -/

/-- Case-insensitive literal at position `i` (the literal is lowercase). -/
def ciLitAt (cs : List Char) (i : Nat) : List Char → Bool
  | [] => true
  | c :: rest =>
    (match cs[i]? with | some d => d.toLower == c | none => false) && ciLitAt cs (i + 1) rest

/-- The alternation `(keep|cut|sell)` of `ACTION` under `(?i)`, at `i`;
returns the lowercased verb (the source applies `.lower()` to the match)
and its length. -/
def verbAt (cs : List Char) (i : Nat) : Option (String × Nat) :=
  if ciLitAt cs i "keep".toList then some ("keep", 4)
  else if ciLitAt cs i "cut".toList then some ("cut", 3)
  else if ciLitAt cs i "sell".toList then some ("sell", 4)
  else none

/-- Model of `ACTION.match(line)` for a line without a newline character (the lines
come from `split("\n")`): leading whitespace, a verb, whitespace, a colon,
then greedy whitespace and the non-empty remainder as group 2.  When
everything after the colon is whitespace, the greedy `\s*` backtracks one
character so that `(.+)` captures exactly the final whitespace character. -/
def actionMatch (ln : List Char) : Option (String × List Char) :=
  let i := runAll isSpaceCh ln 0
  match verbAt ln i with
  | none => none
  | some (v, len) =>
    let j := i + len
    let j2 := j + runAll isSpaceCh ln j
    if ln[j2]? = some ':' then
      let rest := ln.drop (j2 + 1)
      let w := runAll isSpaceCh rest 0
      if w < rest.length then some (v, rest.drop w)
      else if rest.length ≥ 1 then some (v, rest.drop (rest.length - 1))
      else none
    else none

/-! ## Candidate accumulation and tallies -/

/-- The `candidates` dict from symbol to its accumulated reason set; the
reason set keeps insertion order and is sorted on output. -/
abbrev CandMap := List (String × List String)

/-- The `add` closure of `detect_from_story`. -/
def addCand (m : CandMap) (sym0 reason : String) : CandMap :=
  let sym := strUpper sym0
  if 6 < sym.length then m
  else if STOP.contains sym then m
  else if shapeOk sym = false then m
  else
    let rs := (getKey m sym).getD []
    setKey m sym (if rs.contains reason then rs else rs ++ [reason])

/-- One keep/cut/sell counter record (the `ticker` field of the Python dict
is the key of the enclosing map). -/
structure Tally where
  keep : Nat
  cut : Nat
  sell : Nat
deriving DecidableEq, Repr

abbrev TallyMap := List (String × Tally)

/-- Model of `t[action] += 1`; `action` is a verb produced by `ACTION`. -/
def bumpAct (t : Tally) (a : String) : Tally :=
  if a = "keep" then { t with keep := t.keep + 1 }
  else if a = "cut" then { t with cut := t.cut + 1 }
  else if a = "sell" then { t with sell := t.sell + 1 }
  else t

/-- The tally effect of one line of the ACTION loop. -/
def tallyLine (m : TallyMap) (ln : List Char) : TallyMap :=
  match actionMatch ln with
  | none => m
  | some (act, payload) =>
    (_split_symbols payload).foldl
      (fun m sym => setKey m sym (bumpAct ((getKey m sym).getD ⟨0, 0, 0⟩) act)) m

/-- The tallies accumulated by the ACTION loop over all lines. -/
def actionTallies (lines : List (List Char)) : TallyMap :=
  lines.foldl tallyLine []

/-- The `(symbol, reason)` pairs fed to `add` by the ACTION loop, in order. -/
def actionAdds (lines : List (List Char)) : List (String × String) :=
  (lines.map (fun l =>
    match actionMatch l with
    | none => []
    | some (act, payload) =>
      (_split_symbols payload).map (fun sym => (sym, "list:" ++ capitalizeStr act)))).flatten

/-! ## The story data model and `detect_from_story` -/

/-- A story comment; only `body` is read by the detection code, the other
fields of the source model (`author`, `score`, `created_utc`) are
pass-through and omitted. -/
structure N8nComment where
  body : Option String
deriving DecidableEq, Repr

/-- An input story; only the fields read by `detect_from_story` are kept
(the remaining source fields — `ok`, `platform`, `author`, `score`,
`created_utc`, `chars`, `comments_excerpt`, `sentiment`, `source`,
`published_at`, `interest` — are never read by the embedded operations). -/
structure N8nStory where
  url : Option String
  title : Option String
  excerpt : Option String
  combined_text : Option String
  comments : List N8nComment
deriving DecidableEq, Repr

structure Candidate where
  symbol : String
  reasons : List String
deriving DecidableEq, Repr

structure TallyOut where
  ticker : String
  keep : Nat
  cut : Nat
  sell : Nat
deriving DecidableEq, Repr

structure StoryResult where
  url : Option String
  title : Option String
  candidates : List Candidate
  tallies : List TallyOut
deriving DecidableEq, Repr

/-- The accumulated candidate map of `detect_from_story` (the state of the
`candidates` dict after all five matcher loops). -/
def candMapOf (joined : List Char) : CandMap :=
  let m1 := (scan joined cashtagMatchAt).foldl (fun m g => addCand m g "cashtag") []
  let m2 := (scan joined parenMatchAt).foldl (fun m g => addCand m g "paren") m1
  let m3 := (scan joined urlMatchAt).foldl (fun m g => addCand m g "url") m2
  let m4 := (actionAdds (splitNl joined)).foldl (fun m p => addCand m p.1 p.2) m3
  (scan joined uppercMatchAt).foldl
    (fun m g =>
      let sym := strUpper g
      if STOP.contains sym = false ∧ sym.length ≤ 5 ∧
          (sym.toList.all Char.isDigit && !sym.isEmpty) = false then
        addCand m sym "allcaps"
      else m) m4

/-- The normalised, joined text of a story: title, excerpt, combined text
and every comment body, each cleaned, joined by `" \n "`.  (The source
guards the comment extension with `if s.comments:`, a no-op distinction.) -/
def joinedOf (s : N8nStory) : List Char :=
  let blocks := [s.title.getD "", s.excerpt.getD "", s.combined_text.getD ""] ++
    (if s.comments = [] then [] else s.comments.map (fun c => c.body.getD ""))
  List.intercalate (" \n ".toList) (blocks.map (fun b => _clean b.toList))

/-- Model of `detect_from_story`. -/
def detect_from_story (s : N8nStory) : StoryResult :=
  let joined := joinedOf s
  let m := candMapOf joined
  let tal := actionTallies (splitNl joined)
  { url := s.url
    title := s.title
    candidates := (sortByKey m).map (fun e => ⟨e.1, sortStrings e.2⟩)
    tallies := (sortByKey tal).map (fun e => ⟨e.1, e.2.keep, e.2.cut, e.2.sell⟩) }

/-! ## Cache store and verification client

Time is an integer clock (`time.time()` is a real-valued clock; every
comparison in the source is order-theoretic, so integer seconds are a
faithful carrier).  The cache is threaded explicitly; each operation
returns the number of external search queries it performed. -/

/-- One quote record of the search response.  `symbol` is read with
`q.get("symbol", "")` on the matching path, so an absent field behaves as
`""` and is represented that way; the other fields are plain `get`s and
stay optional. -/
structure Quote where
  symbol : String
  shortname : Option String
  longname : Option String
  exchDisp : Option String
  quoteType : Option String
deriving DecidableEq, Repr

/-- The search response, reduced to its `quotes` list (`d.get("quotes", [])`
is the only field the client reads). -/
abbrev SearchResponse := List Quote

abbrev Cache := List (String × (Int × SearchResponse))

/-- The TTL constant, `_TTL = 15 * 60`. -/
def TTL : Int := 15 * 60

/-- Model of `cache_get`: miss on an absent key; on a present key older than the
TTL, pop the entry and miss; otherwise hit.  Returns the result together
with the cache after the (possible) lazy removal. -/
def cache_get (now : Int) (key : String) (c : Cache) : Option SearchResponse × Cache :=
  match getKey c key with
  | none => (none, c)
  | some (ts, d) => if now - ts > TTL then (none, eraseKey c key) else (some d, c)

/-- Model of `cache_set`: overwrite the key with the current timestamp. -/
def cache_set (now : Int) (key : String) (d : SearchResponse) (c : Cache) : Cache :=
  setKey c key (now, d)

/-- The cache key used by `yahoo_search` for query term `q`. -/
def yhKey (q : String) : String := "yh:" ++ q

/-- Model of `yahoo_search`: check the cache under `yh:` + query; on a miss issue
one external call.  `oracle q = none` models the call failing (transport
error, timeout, or `raise_for_status` on a non-success status): the
exception propagates before `cache_set` runs, so nothing is stored.  The
`Nat` component counts external calls (0 or 1). -/
def yahoo_search (oracle : String → Option SearchResponse) (now : Int) (q : String)
    (c : Cache) : Except Unit SearchResponse × Cache × Nat :=
  match cache_get now (yhKey q) c with
  | (some hit, c1) => (Except.ok hit, c1, 0)
  | (none, c1) =>
    match oracle q with
    | none => (Except.error (), c1, 1)
    | some data => (Except.ok data, cache_set now (yhKey q) data c1, 1)

/-- The record built from a matching quote by both client operations. -/
structure VerifiedSymbol where
  symbol : String
  shortname : Option String
  longname : Option String
  exchange : Option String
  type : Option String
deriving DecidableEq, Repr

def mkVerified (q : Quote) : VerifiedSymbol :=
  ⟨q.symbol, q.shortname, q.longname, q.exchDisp, q.quoteType⟩

/-- Model of `verify_symbol`: search for the symbol, return the first quote whose
symbol equals the input case-insensitively; any exception from the search
is swallowed into `none`. -/
def verify_symbol (oracle : String → Option SearchResponse) (now : Int) (sym : String)
    (c : Cache) : Option VerifiedSymbol × Cache × Nat :=
  match yahoo_search oracle now sym c with
  | (Except.error _, c1, n) => (none, c1, n)
  | (Except.ok d, c1, n) =>
    ((d.find? (fun q => strUpper q.symbol == strUpper sym)).map mkVerified, c1, n)

/-- The instrument types accepted by `resolve_name`. -/
def nameTypes : List String := ["EQUITY", "ETF", "MUTUALFUND", "INDEX", "CRYPTO"]

/-- Model of `resolve_name`: search for the name, return the first quote whose
`quoteType` is one of the accepted instrument types; exceptions are
swallowed into `none`. -/
def resolve_name (oracle : String → Option SearchResponse) (now : Int) (name : String)
    (c : Cache) : Option VerifiedSymbol × Cache × Nat :=
  match yahoo_search oracle now name c with
  | (Except.error _, c1, n) => (none, c1, n)
  | (Except.ok d, c1, n) =>
    ((d.find? (fun q =>
        match q.quoteType with
        | some t => nameTypes.contains t
        | none => false)).map mkVerified, c1, n)

/-! ## The Discover endpoint

`discover_n8n` fans out one `verify_symbol` call per union symbol via
`asyncio.gather` and recombines the results positionally.  For the
response-shape claims the per-symbol outcome is abstracted into a function
`f : String → Option VerifiedSymbol` (the value each gathered call settled
on, whatever the cache interleaving); the post-processing below is the
source's, verbatim. -/

structure StoryOut where
  url : Option String
  title : Option String
  candidates : List Candidate
  tallies : List TallyOut
  allowed_tickers : List String
deriving DecidableEq, Repr

structure DiscoverResponse where
  per_story : List StoryOut
  union_candidates : List String
  verified : List VerifiedSymbol
  allowed_tickers : List String
deriving DecidableEq, Repr

/-- The candidate symbols of one per-story result. -/
def candSyms (r : StoryResult) : List String := r.candidates.map Candidate.symbol

/-- The `per_story` list before the allowed sets are attached. -/
def perStories (stories : List N8nStory) : List StoryResult :=
  stories.map detect_from_story

/-- The union line of the source, sorted set of all candidate symbols across stories. -/
def unionSyms (stories : List N8nStory) : List String :=
  sortedSet (((perStories stories).map candSyms).flatten)

/-- The `verified` list: one gathered `verify_symbol` outcome per union
symbol (in order), the `None`s dropped; skipped entirely when verification
is off or the union is empty. -/
def discoverVerified (f : String → Option VerifiedSymbol) (verify : Bool)
    (stories : List N8nStory) : List VerifiedSymbol :=
  if verify ∧ unionSyms stories ≠ [] then ((unionSyms stories).map f).filterMap id else []

/-- The global `allowed` set: the sorted set of uppercased verified symbols,
or the whole union when verification was skipped. -/
def discoverAllowed (f : String → Option VerifiedSymbol) (verify : Bool)
    (stories : List N8nStory) : List String :=
  if verify ∧ unionSyms stories ≠ [] then
    sortedSet ((discoverVerified f verify stories).map (fun x => strUpper x.symbol))
  else unionSyms stories

/-- Model of `discover_n8n` for a request with stories `stories` and flag `verify`. -/
def discover_n8n (f : String → Option VerifiedSymbol) (verify : Bool)
    (stories : List N8nStory) : DiscoverResponse :=
  { per_story := (perStories stories).map (fun ps =>
      StoryOut.mk ps.url ps.title ps.candidates ps.tallies
        (sortedSet ((candSyms ps).filter
          (fun c => (discoverAllowed f verify stories).contains c))))
    union_candidates := unionSyms stories
    verified := discoverVerified f verify stories
    allowed_tickers := discoverAllowed f verify stories }

/-! ## Lemmas: association lists -/

theorem getKey_setKey_self {α : Type} (m : List (String × α)) (k : String) (v : α) :
    getKey (setKey m k v) k = some v := by
  induction m with
  | nil => simp [setKey, getKey]
  | cons e rest ih =>
    by_cases h : e.1 = k
    · simp [setKey, h, getKey]
    · simp [setKey, h, getKey, ih]

theorem getKey_setKey_ne {α : Type} (m : List (String × α)) (k k2 : String) (v : α)
    (h : k2 ≠ k) : getKey (setKey m k v) k2 = getKey m k2 := by
  have hk : k ≠ k2 := fun hh => h hh.symm
  induction m with
  | nil => simp [setKey, getKey, hk]
  | cons e rest ih =>
    by_cases he : e.1 = k
    · subst he
      simp [setKey, getKey, hk]
    · simp [setKey, he, getKey, ih]

theorem getKey_eraseKey_self {α : Type} (m : List (String × α)) (k : String) :
    getKey (eraseKey m k) k = none := by
  induction m with
  | nil => rfl
  | cons e rest ih =>
    by_cases h : e.1 = k
    · simpa [eraseKey, List.filter_cons, h] using ih
    · simpa [eraseKey, List.filter_cons, h, getKey] using ih

theorem getKey_eraseKey_ne {α : Type} (m : List (String × α)) (k k2 : String)
    (h : k2 ≠ k) : getKey (eraseKey m k) k2 = getKey m k2 := by
  have hk : ¬ k = k2 := fun hh => h hh.symm
  induction m with
  | nil => rfl
  | cons e rest ih =>
    by_cases he : e.1 = k
    · have he2 : ¬ e.1 = k2 := fun hh => h (hh ▸ he)
      simpa [eraseKey, List.filter_cons, he, getKey, he2, hk, h] using ih
    · by_cases he2 : e.1 = k2
      · simp [eraseKey, List.filter_cons, he, getKey, he2, hk, h]
      · simpa [eraseKey, List.filter_cons, he, getKey, he2, hk, h] using ih

theorem mem_setKey {α : Type} {m : List (String × α)} {k : String} {v : α}
    {e : String × α} (he : e ∈ setKey m k v) : e = (k, v) ∨ e ∈ m := by
  induction m with
  | nil => simpa [setKey] using he
  | cons x rest ih =>
    by_cases h : x.1 = k
    · rcases (by simpa [setKey, h] using he : e = (k, v) ∨ e ∈ rest) with h1 | h1
      · exact Or.inl h1
      · exact Or.inr (List.mem_cons_of_mem _ h1)
    · rcases (by simpa [setKey, h] using he : e = x ∨ e ∈ setKey rest k v) with h1 | h1
      · exact Or.inr (h1 ▸ List.mem_cons_self x rest)
      · rcases ih h1 with h2 | h2
        · exact Or.inl h2
        · exact Or.inr (List.mem_cons_of_mem _ h2)

/-- Distinct-keys relation for entry lists (the dict invariant). -/
def keyNe {α : Type} (a b : String × α) : Prop := a.1 ≠ b.1

theorem pairwise_setKey {α : Type} {m : List (String × α)} (h : m.Pairwise keyNe)
    (k : String) (v : α) : (setKey m k v).Pairwise keyNe := by
  induction m with
  | nil => simp [setKey, keyNe]
  | cons e rest ih =>
    rw [List.pairwise_cons] at h
    by_cases he : e.1 = k
    · rw [setKey, if_pos he, List.pairwise_cons]
      exact ⟨fun b hb => he ▸ h.1 b hb, h.2⟩
    · rw [setKey, if_neg he, List.pairwise_cons]
      refine ⟨fun b hb => ?_, ih h.2⟩
      rcases mem_setKey hb with h1 | h1
      · simpa [keyNe, h1] using he
      · exact h.1 b h1

/-! ## Lemmas: the code-point order -/

theorem listLtB_irrefl (l : List Char) : listLtB l l = false := by
  induction l with
  | nil => rfl
  | cons a as ih => simp [listLtB, lt_irrefl, ih]

theorem listLtB_asymm : ∀ {a b : List Char}, listLtB a b = true → listLtB b a = false := by
  intro a
  induction a with
  | nil =>
    intro b h
    cases b with
    | nil => simp [listLtB] at h
    | cons c cs => rfl
  | cons x xs ih =>
    intro b h
    cases b with
    | nil => simp [listLtB] at h
    | cons y ys =>
      simp only [listLtB] at h ⊢
      by_cases h1 : x < y
      · rw [if_neg (asymm h1), if_pos h1]
      · rw [if_neg h1] at h
        by_cases h2 : y < x
        · rw [if_pos h2] at h; exact absurd h (by simp)
        · rw [if_neg h2] at h
          rw [if_neg h2, if_neg h1]
          exact ih h

theorem listLtB_trans : ∀ {a b c : List Char},
    listLtB a b = true → listLtB b c = true → listLtB a c = true := by
  intro a
  induction a with
  | nil =>
    intro b c h1 h2
    cases c with
    | nil =>
      cases b with
      | nil => simp [listLtB] at h1
      | cons y ys => simp [listLtB] at h2
    | cons z zs => rfl
  | cons x xs ih =>
    intro b c h1 h2
    cases b with
    | nil => simp [listLtB] at h1
    | cons y ys =>
      cases c with
      | nil => simp [listLtB] at h2
      | cons z zs =>
        simp only [listLtB] at h1 h2 ⊢
        by_cases hxy : x < y
        · by_cases hyz : y < z
          · rw [if_pos (hxy.trans hyz)]
          · rw [if_neg hyz] at h2
            by_cases hzy : z < y
            · rw [if_pos hzy] at h2; exact absurd h2 (by simp)
            · have : y = z := le_antisymm (le_of_not_lt hzy) (le_of_not_lt hyz)
              rw [if_pos (this ▸ hxy)]
        · rw [if_neg hxy] at h1
          by_cases hyx : y < x
          · rw [if_pos hyx] at h1; exact absurd h1 (by simp)
          · have hxy2 : x = y := le_antisymm (le_of_not_lt hyx) (le_of_not_lt hxy)
            rw [if_neg hyx] at h1
            subst hxy2
            by_cases hxz : x < z
            · rw [if_pos hxz]
            · rw [if_neg hxz] at h2 ⊢
              by_cases hzx : z < x
              · rw [if_pos hzx] at h2; exact absurd h2 (by simp)
              · rw [if_neg hzx] at h2 ⊢
                exact ih h1 h2

theorem listLtB_eq_of_not : ∀ {a b : List Char},
    listLtB a b = false → listLtB b a = false → a = b := by
  intro a
  induction a with
  | nil =>
    intro b h1 _
    cases b with
    | nil => rfl
    | cons y ys => simp [listLtB] at h1
  | cons x xs ih =>
    intro b h1 h2
    cases b with
    | nil => simp [listLtB] at h2
    | cons y ys =>
      simp only [listLtB] at h1 h2
      by_cases hxy : x < y
      · rw [if_pos hxy] at h1; exact absurd h1 (by simp)
      · by_cases hyx : y < x
        · rw [if_pos hyx] at h2; exact absurd h2 (by simp)
        · rw [if_neg hxy, if_neg hyx] at h1
          rw [if_neg hyx, if_neg hxy] at h2
          have hx : x = y := le_antisymm (le_of_not_lt hyx) (le_of_not_lt hxy)
          rw [hx, ih h1 h2]

theorem strLtB_irrefl (a : String) : strLtB a a = false := listLtB_irrefl _

theorem strLtB_asymm {a b : String} (h : strLtB a b = true) : strLtB b a = false :=
  listLtB_asymm h

theorem strLtB_trans {a b c : String} (h1 : strLtB a b = true) (h2 : strLtB b c = true) :
    strLtB a c = true := listLtB_trans h1 h2

theorem strLtB_eq_of_not {a b : String} (h1 : strLtB a b = false)
    (h2 : strLtB b a = false) : a = b := by
  cases a with
  | mk da =>
    cases b with
    | mk db =>
      have : da = db := listLtB_eq_of_not h1 h2
      rw [this]

/-- Totality: on distinct strings the comparison points one way. -/
theorem strLtB_true_of {a b : String} (h1 : strLtB b a = false) (h2 : a ≠ b) :
    strLtB a b = true := by
  cases hh : strLtB a b with
  | true => rfl
  | false => exact absurd (strLtB_eq_of_not hh h1) h2

/-- Transitivity of the non-strict comparison used by `insStr`. -/
theorem strLtB_false_trans {a b c : String} (h1 : strLtB b a = false)
    (h2 : strLtB c b = false) : strLtB c a = false := by
  cases hca : strLtB c a with
  | false => rfl
  | true =>
    by_cases hcb : c = b
    · subst hcb
      rw [hca] at h1
      exact absurd h1 (by simp)
    · have hbc : strLtB b c = true := strLtB_true_of h2 (fun hh => hcb hh.symm)
      have := strLtB_trans hbc hca
      rw [this] at h1
      exact absurd h1 (by simp)

/-! ## Lemmas: sorted sets and key-sorted entry lists -/

theorem mem_insSorted (x a : String) (l : List String) :
    a ∈ insSorted x l ↔ a = x ∨ a ∈ l := by
  induction l with
  | nil => simp [insSorted]
  | cons y ys ih =>
    by_cases h1 : strLtB x y = true
    · simp [insSorted, h1]
    · by_cases h2 : x = y
      · subst h2
        rw [insSorted, if_neg h1, if_pos rfl]
        simp only [List.mem_cons]
        tauto
      · rw [insSorted, if_neg h1, if_neg h2]
        simp only [List.mem_cons, ih]
        tauto

theorem pairwise_insSorted (x : String) (l : List String)
    (hl : l.Pairwise sLt) : (insSorted x l).Pairwise sLt := by
  induction l with
  | nil => simp [insSorted, sLt]
  | cons y ys ih =>
    rw [List.pairwise_cons] at hl
    by_cases h1 : strLtB x y = true
    · rw [insSorted, if_pos h1, List.pairwise_cons]
      refine ⟨fun b hb => ?_, ?_⟩
      · rcases List.mem_cons.1 hb with hb1 | hb1
        · exact hb1 ▸ h1
        · exact strLtB_trans h1 (hl.1 b hb1)
      · rw [List.pairwise_cons]
        exact ⟨hl.1, hl.2⟩
    · by_cases h2 : x = y
      · rw [insSorted, if_neg h1, if_pos h2, List.pairwise_cons]
        exact ⟨hl.1, hl.2⟩
      · have hyx : strLtB y x = true :=
          strLtB_true_of (Bool.eq_false_iff.2 h1) (fun hh => h2 hh.symm)
        rw [insSorted, if_neg h1, if_neg h2, List.pairwise_cons]
        refine ⟨fun b hb => ?_, ih hl.2⟩
        rcases (mem_insSorted x b ys).1 hb with h3 | h3
        · exact h3 ▸ hyx
        · exact hl.1 b h3

theorem mem_sortedSet (a : String) (l : List String) :
    a ∈ sortedSet l ↔ a ∈ l := by
  induction l with
  | nil => simp [sortedSet]
  | cons x xs ih =>
    show a ∈ insSorted x (sortedSet xs) ↔ _
    rw [mem_insSorted, ih]
    simp

theorem pairwise_sortedSet (l : List String) : (sortedSet l).Pairwise sLt := by
  induction l with
  | nil => simp [sortedSet]
  | cons x xs ih => exact pairwise_insSorted x _ ih

theorem insSorted_eq_cons (x : String) (l : List String)
    (h : ∀ b ∈ l, strLtB x b = true) : insSorted x l = x :: l := by
  cases l with
  | nil => rfl
  | cons y ys => rw [insSorted, if_pos (h y (List.mem_cons_self y ys))]

/-- Python `sorted(set(l))` is the identity on a strictly sorted list. -/
theorem sortedSet_eq_self (l : List String) (h : l.Pairwise sLt) : sortedSet l = l := by
  induction l with
  | nil => rfl
  | cons x xs ih =>
    rw [List.pairwise_cons] at h
    show insSorted x (sortedSet xs) = x :: xs
    rw [ih h.2, insSorted_eq_cons x xs h.1]

theorem perm_insEntry {α : Type} (x : String × α) (l : List (String × α)) :
    (insEntry x l).Perm (x :: l) := by
  induction l with
  | nil => simp [insEntry]
  | cons y ys ih =>
    by_cases h : strLtB x.1 y.1 = true
    · rw [insEntry, if_pos h]
    · rw [insEntry, if_neg h]
      exact (ih.cons y).trans (List.Perm.swap x y ys)

theorem perm_sortByKey {α : Type} (l : List (String × α)) : (sortByKey l).Perm l := by
  induction l with
  | nil => simp [sortByKey]
  | cons x xs ih => exact (perm_insEntry x (sortByKey xs)).trans (ih.cons x)

theorem mem_sortByKey {α : Type} (e : String × α) (l : List (String × α)) :
    e ∈ sortByKey l ↔ e ∈ l := (perm_sortByKey l).mem_iff

/-- Key ordering for entry lists (non-strict / strict). -/
def keyLe {α : Type} (a b : String × α) : Prop := strLtB b.1 a.1 = false

def keyLt {α : Type} (a b : String × α) : Prop := strLtB a.1 b.1 = true

theorem pairwise_le_insEntry {α : Type} (x : String × α) (l : List (String × α))
    (hl : l.Pairwise keyLe) : (insEntry x l).Pairwise keyLe := by
  induction l with
  | nil => simp [insEntry, keyLe]
  | cons y ys ih =>
    rw [List.pairwise_cons] at hl
    by_cases h : strLtB x.1 y.1 = true
    · rw [insEntry, if_pos h, List.pairwise_cons]
      refine ⟨fun b hb => ?_, ?_⟩
      · rcases List.mem_cons.1 hb with hb1 | hb1
        · exact hb1 ▸ strLtB_asymm h
        · exact strLtB_false_trans (strLtB_asymm h) (hl.1 b hb1)
      · rw [List.pairwise_cons]
        exact ⟨hl.1, hl.2⟩
    · rw [insEntry, if_neg h, List.pairwise_cons]
      refine ⟨fun b hb => ?_, ih hl.2⟩
      rcases List.mem_cons.1 ((perm_insEntry x ys).mem_iff.1 hb) with h1 | h1
      · exact h1 ▸ Bool.eq_false_iff.2 h
      · exact hl.1 b h1

theorem pairwise_le_sortByKey {α : Type} (l : List (String × α)) :
    (sortByKey l).Pairwise keyLe := by
  induction l with
  | nil => simp [sortByKey]
  | cons x xs ih => exact pairwise_le_insEntry x _ ih

/-- Sorting a dict's entries by key yields strictly increasing keys. -/
theorem pairwise_lt_sortByKey {α : Type} (l : List (String × α))
    (h : l.Pairwise keyNe) : (sortByKey l).Pairwise keyLt := by
  have hne : (sortByKey l).Pairwise keyNe :=
    ((perm_sortByKey l).pairwise_iff (fun hab => Ne.symm hab)).2 h
  have hc := (pairwise_le_sortByKey l).and hne
  exact hc.imp (fun hab => strLtB_true_of hab.1 hab.2)

/-! ## Lemmas: the candidate map -/

theorem foldl_preserve {α β : Type} (P : α → Prop) (step : α → β → α)
    (hstep : ∀ m x, P m → P (step m x)) :
    ∀ (l : List β) (m : α), P m → P (l.foldl step m) := by
  intro l
  induction l with
  | nil => intro m hm; exact hm
  | cons x xs ih => intro m hm; exact ih (step m x) (hstep m x hm)

theorem mem_addCand {m : CandMap} {s r : String} {e : String × List String}
    (he : e ∈ addCand m s r) :
    e ∈ m ∨ (e.1 = strUpper s ∧ STOP.contains (strUpper s) = false ∧
      shapeOk (strUpper s) = true) := by
  simp only [addCand] at he
  split_ifs at he with h1 h2 h3 h4
  · exact Or.inl he
  · exact Or.inl he
  · exact Or.inl he
  · rcases mem_setKey he with h5 | h5
    · exact Or.inr ⟨by rw [h5], by simpa using h2, by simpa using h3⟩
    · exact Or.inl h5
  · rcases mem_setKey he with h5 | h5
    · exact Or.inr ⟨by rw [h5], by simpa using h2, by simpa using h3⟩
    · exact Or.inl h5

theorem pairwise_addCand {m : CandMap} (h : m.Pairwise keyNe) (s r : String) :
    (addCand m s r).Pairwise keyNe := by
  simp only [addCand]
  split_ifs
  · exact h
  · exact h
  · exact h
  · exact pairwise_setKey h _ _
  · exact pairwise_setKey h _ _

/-- No stop-listed symbol is ever a key of the accumulated candidate map. -/
theorem candMapOf_stop (joined : List Char) :
    ∀ e ∈ candMapOf joined, STOP.contains e.1 = false := by
  unfold candMapOf
  have step1 : ∀ (reason : String) (l : List String) (m : CandMap),
      (∀ e ∈ m, STOP.contains e.1 = false) →
      ∀ e ∈ l.foldl (fun m g => addCand m g reason) m, STOP.contains e.1 = false := by
    intro reason l m hm
    refine foldl_preserve (fun m => ∀ e ∈ m, STOP.contains e.1 = false) _ ?_ l m hm
    intro m x hmx e he
    rcases mem_addCand he with h | h
    · exact hmx e h
    · exact h.1 ▸ h.2.1
  have step2 : ∀ (l : List (String × String)) (m : CandMap),
      (∀ e ∈ m, STOP.contains e.1 = false) →
      ∀ e ∈ l.foldl (fun m p => addCand m p.1 p.2) m, STOP.contains e.1 = false := by
    intro l m hm
    refine foldl_preserve (fun m => ∀ e ∈ m, STOP.contains e.1 = false) _ ?_ l m hm
    intro m x hmx e he
    rcases mem_addCand he with h | h
    · exact hmx e h
    · exact h.1 ▸ h.2.1
  have step3 : ∀ (l : List String) (m : CandMap),
      (∀ e ∈ m, STOP.contains e.1 = false) →
      ∀ e ∈ l.foldl (fun m g =>
        let sym := strUpper g
        if STOP.contains sym = false ∧ sym.length ≤ 5 ∧
            (sym.toList.all Char.isDigit && !sym.isEmpty) = false then
          addCand m sym "allcaps"
        else m) m, STOP.contains e.1 = false := by
    intro l m hm
    refine foldl_preserve (fun m => ∀ e ∈ m, STOP.contains e.1 = false) _ ?_ l m hm
    intro m x hmx e he
    dsimp only at he
    split at he
    · rcases mem_addCand he with h | h
      · exact hmx e h
      · exact h.1 ▸ h.2.1
    · exact hmx e he
  intro e he
  exact step3 _ _ (step2 _ _ (step1 "url" _ _ (step1 "paren" _ _
    (step1 "cashtag" _ _ (by simp))))) e he

/-- The accumulated candidate map has pairwise distinct keys. -/
theorem candMapOf_pairwise (joined : List Char) :
    (candMapOf joined).Pairwise keyNe := by
  unfold candMapOf
  have step1 : ∀ (reason : String) (l : List String) (m : CandMap),
      m.Pairwise keyNe →
      (l.foldl (fun m g => addCand m g reason) m).Pairwise keyNe := by
    intro reason l m hm
    exact foldl_preserve (fun m => m.Pairwise keyNe) _
      (fun m x hmx => pairwise_addCand hmx _ _) l m hm
  have step2 : ∀ (l : List (String × String)) (m : CandMap),
      m.Pairwise keyNe →
      (l.foldl (fun m p => addCand m p.1 p.2) m).Pairwise keyNe := by
    intro l m hm
    exact foldl_preserve (fun m => m.Pairwise keyNe) _
      (fun m x hmx => pairwise_addCand hmx _ _) l m hm
  have step3 : ∀ (l : List String) (m : CandMap),
      m.Pairwise keyNe →
      (l.foldl (fun m g =>
        let sym := strUpper g
        if STOP.contains sym = false ∧ sym.length ≤ 5 ∧
            (sym.toList.all Char.isDigit && !sym.isEmpty) = false then
          addCand m sym "allcaps"
        else m) m).Pairwise keyNe := by
    intro l m hm
    refine foldl_preserve (fun m => m.Pairwise keyNe) _ ?_ l m hm
    intro m x hmx
    dsimp only
    split
    · exact pairwise_addCand hmx _ _
    · exact hmx
  exact step3 _ _ (step2 _ _ (step1 "url" _ _ (step1 "paren" _ _
    (step1 "cashtag" _ _ (by simp)))))

/-- Every candidate of a story result has a non-stop-listed symbol. -/
theorem detect_candidates_stop (st : N8nStory) :
    ∀ c ∈ (detect_from_story st).candidates, STOP.contains c.symbol = false := by
  intro c hc
  have : (detect_from_story st).candidates =
      (sortByKey (candMapOf (joinedOf st))).map (fun e => ⟨e.1, sortStrings e.2⟩) := rfl
  rw [this] at hc
  rcases List.mem_map.1 hc with ⟨e, he, rfl⟩
  exact candMapOf_stop _ e ((mem_sortByKey e _).1 he)

/-- The candidate symbols of a story result are strictly sorted. -/
theorem detect_candSyms_pairwise (st : N8nStory) :
    (candSyms (detect_from_story st)).Pairwise sLt := by
  have h1 : candSyms (detect_from_story st) =
      (sortByKey (candMapOf (joinedOf st))).map (fun e => e.1) := by
    show ((sortByKey (candMapOf (joinedOf st))).map
      (fun e => (⟨e.1, sortStrings e.2⟩ : Candidate))).map Candidate.symbol = _
    rw [List.map_map]
    rfl
  rw [h1, List.pairwise_map]
  exact pairwise_lt_sortByKey _ (candMapOf_pairwise _)

/-! ## Claim C7 -/

/-- Claim C7: for every input story, no symbol of the fixed stop-list ever
appears in the extracted candidate list, regardless of which matcher
(cashtag, parenthetical, URL, bare uppercase, or recommendation list)
proposed it: every candidate entry passes the stop-list check inside
`add`. -/
theorem c7_stoplist_exclusion (st : N8nStory) (c : Candidate)
    (hc : c ∈ (detect_from_story st).candidates) : STOP.contains c.symbol = false :=
  detect_candidates_stop st c hc

theorem c7_stoplist_exclusion_witness :
    Candidate.mk "NVDA" ["allcaps"] ∈
      (detect_from_story ⟨none, none, none, some "NVDA rallies", []⟩).candidates ∧
    STOP.contains "NVDA" = false :=
  ⟨by decide, c7_stoplist_exclusion ⟨none, none, none, some "NVDA rallies", []⟩
    (Candidate.mk "NVDA" ["allcaps"]) (by decide)⟩

/-! ## Claim C5 -/

/-- Claim C5: in every Discover response, `union_candidates` is the
strictly sorted (hence deduplicated) enumeration of exactly the candidate
symbols appearing in some story of the batch. -/
theorem c5_union_law (f : String → Option VerifiedSymbol) (b : Bool)
    (stories : List N8nStory) :
    (discover_n8n f b stories).union_candidates.Pairwise sLt ∧
    ∀ s : String, s ∈ (discover_n8n f b stories).union_candidates ↔
      ∃ ps ∈ (discover_n8n f b stories).per_story,
        s ∈ ps.candidates.map Candidate.symbol := by
  constructor
  · exact pairwise_sortedSet _
  · intro s
    show s ∈ unionSyms stories ↔ _
    rw [unionSyms, mem_sortedSet]
    constructor
    · intro hs
      rcases List.mem_flatten.1 hs with ⟨l, hl, hsl⟩
      rcases List.mem_map.1 hl with ⟨p, hp, rfl⟩
      exact ⟨StoryOut.mk p.url p.title p.candidates p.tallies
          (sortedSet ((candSyms p).filter
            (fun c => (discoverAllowed f b stories).contains c))),
        List.mem_map.2 ⟨p, hp, rfl⟩, hsl⟩
    · rintro ⟨ps, hps, hsps⟩
      rcases List.mem_map.1 hps with ⟨p, hp, rfl⟩
      exact List.mem_flatten.2 ⟨candSyms p, List.mem_map.2 ⟨p, hp, rfl⟩, hsps⟩

theorem c5_union_law_witness :
    ("MSFT" : String) ∈ (discover_n8n (fun _ => none) false
        [(⟨none, none, none, some "MSFT up", []⟩ : N8nStory)]).union_candidates ↔
      ∃ ps ∈ (discover_n8n (fun _ => none) false
        [(⟨none, none, none, some "MSFT up", []⟩ : N8nStory)]).per_story,
        "MSFT" ∈ ps.candidates.map Candidate.symbol :=
  (c5_union_law (fun _ => none) false [⟨none, none, none, some "MSFT up", []⟩]).2 "MSFT"

/-! ## Claim C4 -/

/-- Claim C4: in every Discover response, each story's `allowed_tickers`
is a subset of that story's candidate symbols, which are a subset of
`union_candidates`; moreover the story's `allowed_tickers` is exactly the
sorted intersection of its candidate symbols with the global allowed
set. -/
theorem c4_subset_law (f : String → Option VerifiedSymbol) (b : Bool)
    (stories : List N8nStory) :
    ∀ ps ∈ (discover_n8n f b stories).per_story,
      (∀ s ∈ ps.allowed_tickers, s ∈ ps.candidates.map Candidate.symbol) ∧
      (∀ s ∈ ps.candidates.map Candidate.symbol,
        s ∈ (discover_n8n f b stories).union_candidates) ∧
      ps.allowed_tickers = sortedSet ((ps.candidates.map Candidate.symbol).filter
        (fun s => (discover_n8n f b stories).allowed_tickers.contains s)) := by
  intro ps hps
  rcases List.mem_map.1 hps with ⟨p, hp, rfl⟩
  refine ⟨?_, ?_, rfl⟩
  · intro s hs
    exact List.mem_of_mem_filter ((mem_sortedSet s _).1 hs)
  · intro s hs
    show s ∈ unionSyms stories
    rw [unionSyms, mem_sortedSet]
    exact List.mem_flatten.2 ⟨candSyms p, List.mem_map.2 ⟨p, hp, rfl⟩, hs⟩

theorem c4_subset_law_witness :
    ("AAPL" : String) ∈ [Candidate.mk "AAPL" ["allcaps"]].map Candidate.symbol := by
  have h := c4_subset_law (fun _ => none) false
    [⟨none, none, none, some "AAPL up", []⟩]
    (StoryOut.mk none none [Candidate.mk "AAPL" ["allcaps"]] [] ["AAPL"])
    (by decide)
  exact h.1 "AAPL" (by decide)

/-! ## Claim C10 -/

/-- Claim C10: when verification is off, or the union of candidates is
empty, no verification happens: `verified` is empty, the global
`allowed_tickers` equals `union_candidates`, and each story's
`allowed_tickers` is its full (already sorted, duplicate-free) candidate
symbol list. -/
theorem c10_skip_verification (f : String → Option VerifiedSymbol) (b : Bool)
    (stories : List N8nStory)
    (h : b = false ∨ (discover_n8n f b stories).union_candidates = []) :
    (discover_n8n f b stories).verified = [] ∧
    (discover_n8n f b stories).allowed_tickers
      = (discover_n8n f b stories).union_candidates ∧
    ∀ ps ∈ (discover_n8n f b stories).per_story,
      ps.allowed_tickers = ps.candidates.map Candidate.symbol := by
  have hcond : ¬ (b = true ∧ unionSyms stories ≠ []) := by
    rcases h with h | h
    · rintro ⟨hb, _⟩
      rw [h] at hb
      exact Bool.false_ne_true hb
    · rintro ⟨_, hu⟩
      exact hu h
  have hver : discoverVerified f b stories = [] := by
    rw [discoverVerified, if_neg hcond]
  have hall : discoverAllowed f b stories = unionSyms stories := by
    rw [discoverAllowed, if_neg hcond]
  refine ⟨hver, hall, ?_⟩
  intro ps hps
  rcases List.mem_map.1 hps with ⟨p, hp, rfl⟩
  show sortedSet ((candSyms p).filter
      (fun c => (discoverAllowed f b stories).contains c))
    = p.candidates.map Candidate.symbol
  have hmem : ∀ s ∈ candSyms p, (discoverAllowed f b stories).contains s = true := by
    intro s hs
    rw [hall]
    have hsu : s ∈ unionSyms stories := by
      rw [unionSyms, mem_sortedSet]
      exact List.mem_flatten.2 ⟨candSyms p, List.mem_map.2 ⟨p, hp, rfl⟩, hs⟩
    exact List.elem_eq_true_of_mem hsu
  rw [List.filter_eq_self.2 hmem]
  rcases List.mem_map.1 hp with ⟨story, _, rfl⟩
  exact sortedSet_eq_self _ (detect_candSyms_pairwise story)

theorem c10_skip_verification_witness :
    (discover_n8n (fun _ => none) false
      [(⟨none, none, none, some "NVDA up", []⟩ : N8nStory)]).verified = [] :=
  (c10_skip_verification (fun _ => none) false
    [⟨none, none, none, some "NVDA up", []⟩] (Or.inl rfl)).1

/-! ## Claim C8 -/

/-- Observation: the verb counter named `a` of a tally record. -/
def actGet (t : Tally) (a : String) : Nat :=
  if a = "keep" then t.keep
  else if a = "cut" then t.cut
  else if a = "sell" then t.sell
  else 0

/-- The `(sym, a)` counter held by a tally map (0 when the symbol is
absent, matching the zero-initialised record). -/
def tcount (m : TallyMap) (sym a : String) : Nat :=
  actGet ((getKey m sym).getD ⟨0, 0, 0⟩) a

/-- Occurrences of `sym` in a symbol list. -/
def countOcc (sym : String) : List String → Nat
  | [] => 0
  | s :: rest => (if s = sym then 1 else 0) + countOcc sym rest

/-- The increment applied to counter `a` by one bump with verb `act`. -/
def verbHit (act a : String) : Nat :=
  if a = act then (if act = "keep" ∨ act = "cut" ∨ act = "sell" then 1 else 0) else 0

theorem actGet_bump (t : Tally) (act a : String) :
    actGet (bumpAct t act) a = actGet t a + verbHit act a := by
  unfold bumpAct verbHit actGet
  split_ifs <;> simp_all

theorem tcount_setKey (m : TallyMap) (k : String) (v : Tally) (sym a : String) :
    tcount (setKey m k v) sym a = if sym = k then actGet v a else tcount m sym a := by
  unfold tcount
  by_cases h : sym = k
  · subst h
    rw [getKey_setKey_self, if_pos rfl]
    rfl
  · rw [getKey_setKey_ne _ _ _ _ h, if_neg h]

theorem tcount_bumpFold (act : String) :
    ∀ (syms : List String) (m : TallyMap) (sym a : String),
      tcount (syms.foldl
        (fun m sym => setKey m sym (bumpAct ((getKey m sym).getD ⟨0, 0, 0⟩) act)) m) sym a
        = tcount m sym a + verbHit act a * countOcc sym syms := by
  intro syms
  induction syms with
  | nil =>
    intro m sym a
    simp [countOcc]
  | cons s ss ih =>
    intro m sym a
    rw [List.foldl_cons, ih, tcount_setKey]
    by_cases h : sym = s
    · subst h
      rw [if_pos rfl, actGet_bump]
      have hc : countOcc sym (sym :: ss) = 1 + countOcc sym ss := by
        simp [countOcc]
      rw [hc]
      unfold tcount
      ring
    · rw [if_neg h]
      have hns : ¬ s = sym := fun hh => h hh.symm
      have hc : countOcc sym (s :: ss) = countOcc sym ss := by
        simp [countOcc, hns]
      rw [hc]

/-- The contribution of one line to the `(sym, a)` counter. -/
def lineCnt (ln : List Char) (sym a : String) : Nat :=
  match actionMatch ln with
  | none => 0
  | some (act, payload) => verbHit act a * countOcc sym (_split_symbols payload)

theorem tcount_tallyLine (m : TallyMap) (ln : List Char) (sym a : String) :
    tcount (tallyLine m ln) sym a = tcount m sym a + lineCnt ln sym a := by
  unfold tallyLine lineCnt
  cases h : actionMatch ln with
  | none => simp
  | some ap =>
    obtain ⟨act, payload⟩ := ap
    exact tcount_bumpFold act (_split_symbols payload) m sym a

/-- The total contribution of a list of lines. -/
def linesCnt (L : List (List Char)) (sym a : String) : Nat :=
  (L.map (fun l => lineCnt l sym a)).sum

theorem tcount_foldl_lines (sym a : String) :
    ∀ (L : List (List Char)) (m : TallyMap),
      tcount (L.foldl tallyLine m) sym a = tcount m sym a + linesCnt L sym a := by
  intro L
  induction L with
  | nil =>
    intro m
    simp [linesCnt]
  | cons l ls ih =>
    intro m
    rw [List.foldl_cons, ih, tcount_tallyLine]
    simp only [linesCnt, List.map_cons, List.sum_cons]
    ring

theorem tcount_nil (sym a : String) : tcount [] sym a = 0 := by
  unfold tcount actGet getKey
  split_ifs <;> rfl

/-- The tally counters accumulate additively across line lists. -/
theorem tcount_actionTallies_append (l1 l2 : List (List Char)) (sym a : String) :
    tcount (actionTallies (l1 ++ l2)) sym a
      = tcount (actionTallies l1) sym a + tcount (actionTallies l2) sym a := by
  unfold actionTallies
  rw [List.foldl_append, tcount_foldl_lines, tcount_foldl_lines, tcount_foldl_lines,
    tcount_nil]
  ring

/-- The C8 story: its whole text is the standalone line `Keep: NVDA, AAPL`. -/
def st8 : N8nStory := ⟨none, none, none, some "Keep: NVDA, AAPL", []⟩

/-- Claim C8: the story whose text is the standalone line
`Keep: NVDA, AAPL` yields the tallies NVDA keep=1/cut=0/sell=0 and
AAPL keep=1/cut=0/sell=0, both candidates carry reason `list:Keep`, and
the accumulated verb counters are additive across qualifying lines. -/
theorem c8_tally_conservation :
    (detect_from_story st8).tallies
      = [⟨"AAPL", 1, 0, 0⟩, ⟨"NVDA", 1, 0, 0⟩] ∧
    (∀ c ∈ (detect_from_story st8).candidates, "list:Keep" ∈ c.reasons) ∧
    (detect_from_story st8).candidates
      = [⟨"AAPL", ["allcaps", "list:Keep"]⟩, ⟨"NVDA", ["allcaps", "list:Keep"]⟩] ∧
    ∀ (l1 l2 : List (List Char)) (sym a : String),
      tcount (actionTallies (l1 ++ l2)) sym a
        = tcount (actionTallies l1) sym a + tcount (actionTallies l2) sym a :=
  ⟨by decide, by decide, by decide, tcount_actionTallies_append⟩

theorem c8_tally_conservation_witness :
    "list:Keep" ∈ (Candidate.mk "AAPL" ["allcaps", "list:Keep"]).reasons :=
  c8_tally_conservation.2.1 (Candidate.mk "AAPL" ["allcaps", "list:Keep"]) (by decide)

/-! ## Claim C9 -/

/-- The C9 story: its whole text is `Keep: ETF`, a shape-valid but
stop-listed symbol in a recommendation line. -/
def st9 : N8nStory := ⟨none, none, none, some "Keep: ETF", []⟩

/-- Claim C9: tallies are not filtered by the stop-list: `Keep: ETF`
produces a tally for ETF with keep incremented, while the candidate list
excludes ETF, so the tally symbols are not a subset of the candidate
symbols. -/
theorem c9_tallies_not_stop_filtered :
    (detect_from_story st9).tallies = [⟨"ETF", 1, 0, 0⟩] ∧
    (detect_from_story st9).candidates = [] ∧
    "ETF" ∈ STOP ∧ shapeOk "ETF" = true ∧
    ¬ ((detect_from_story st9).tallies.map TallyOut.ticker ⊆
        (detect_from_story st9).candidates.map Candidate.symbol) := by
  refine ⟨by decide, by decide, by decide, by decide, fun hsub => ?_⟩
  have h1 : "ETF" ∈ (detect_from_story st9).tallies.map TallyOut.ticker := by decide
  have h2 := hsub h1
  revert h2
  decide

/-! ## Claim C2 -/

/-- The C2 story: its whole text is
`$NVDA and (OXY) look strong, Keep: NVDA, AAPL`. -/
def st2 : N8nStory :=
  ⟨none, none, none, some "$NVDA and (OXY) look strong, Keep: NVDA, AAPL", []⟩

/-- Claim C2 counterexample: the claimed candidate list (AAPL with reasons
only `list:Keep`, NVDA with `cashtag, list:Keep`, OXY with `paren`) is not
what extraction produces; in fact no candidate carries `list:Keep` at all
(the `Keep:` clause sits mid-line, and `ACTION` only matches at the start
of a line) and every candidate carries `allcaps`. -/
theorem c2_counterexample :
    (detect_from_story st2).candidates ≠
      [⟨"AAPL", ["list:Keep"]⟩, ⟨"NVDA", ["cashtag", "list:Keep"]⟩,
        ⟨"OXY", ["paren"]⟩] ∧
    (detect_from_story st2).candidates.all
      (fun c => !c.reasons.contains "list:Keep" && c.reasons.contains "allcaps") = true := by
  decide

/-- Claim C2 amended: for that story text, extraction produces exactly
AAPL with reasons `allcaps`, NVDA with `allcaps, cashtag`, and OXY with
`allcaps, paren`, and no tallies: the bare-uppercase matcher also tags
every one of the three symbols, and the mid-line `Keep:` clause does not
match the line-anchored recommendation-list rule, so no `list:Keep`
reason and no tally arise. -/
theorem c2_scenario_amended :
    (detect_from_story st2).candidates
      = [⟨"AAPL", ["allcaps"]⟩, ⟨"NVDA", ["allcaps", "cashtag"]⟩,
          ⟨"OXY", ["allcaps", "paren"]⟩] ∧
    (detect_from_story st2).tallies = [] := by
  refine ⟨by decide, by decide⟩

/-! ## Cache characterisation helpers -/

theorem cache_get_some {now ts : Int} {key : String} {c : Cache} {d : SearchResponse}
    (hg : getKey c key = some (ts, d)) :
    cache_get now key c
      = if now - ts > TTL then (none, eraseKey c key) else (some d, c) := by
  unfold cache_get
  rw [hg]

theorem cache_get_none {now : Int} {key : String} {c : Cache}
    (hg : getKey c key = none) : cache_get now key c = (none, c) := by
  unfold cache_get
  rw [hg]

/-! ## Claim C3 -/

/-- Claim C3: cache reads decide validity lazily against the 900-second
TTL: `cache_get` returns the stored payload exactly when an entry exists
with age at most the TTL, removes an expired entry on read, and misses on
an absent key; `cache_set` overwrites the key with the current timestamp.
Consequently, after a successful lookup stored at `t0`, a second lookup of
the same key at `t1` with `t1 - t0 ≤ 900` performs no external query, and
a third lookup at `t2` with `t2 - t0 > 900` performs one again. -/
theorem c3_cache_ttl :
    (∀ (now : Int) (key : String) (c : Cache) (ts : Int) (d : SearchResponse),
      getKey c key = some (ts, d) →
        (now - ts ≤ TTL → cache_get now key c = (some d, c)) ∧
        (now - ts > TTL → cache_get now key c = (none, eraseKey c key))) ∧
    (∀ (now : Int) (key : String) (c : Cache),
      getKey c key = none → cache_get now key c = (none, c)) ∧
    (∀ (now : Int) (key : String) (d : SearchResponse) (c : Cache),
      getKey (cache_set now key d c) key = some (now, d)) ∧
    (∀ (oracle oracle2 oracle3 : String → Option SearchResponse)
      (t0 t1 t2 : Int) (q : String) (c : Cache) (data : SearchResponse),
      oracle q = some data → getKey c (yhKey q) = none →
      t1 - t0 ≤ TTL → t2 - t0 > TTL →
      (yahoo_search oracle t0 q c).2.2 = 1 ∧
      (yahoo_search oracle2 t1 q (yahoo_search oracle t0 q c).2.1).2.2 = 0 ∧
      (yahoo_search oracle2 t1 q (yahoo_search oracle t0 q c).2.1).2.1
        = (yahoo_search oracle t0 q c).2.1 ∧
      (yahoo_search oracle3 t2 q (yahoo_search oracle t0 q c).2.1).2.2 = 1) := by
  have hhit : ∀ (now : Int) (key : String) (c : Cache) (ts : Int) (d : SearchResponse),
      getKey c key = some (ts, d) → now - ts ≤ TTL → cache_get now key c = (some d, c) := by
    intro now key c ts d hg hle
    rw [cache_get_some hg, if_neg (not_lt.2 hle)]
  have hexp : ∀ (now : Int) (key : String) (c : Cache) (ts : Int) (d : SearchResponse),
      getKey c key = some (ts, d) → now - ts > TTL →
        cache_get now key c = (none, eraseKey c key) := by
    intro now key c ts d hg hgt
    rw [cache_get_some hg, if_pos hgt]
  have hmiss : ∀ (now : Int) (key : String) (c : Cache),
      getKey c key = none → cache_get now key c = (none, c) := by
    intro now key c hg
    exact cache_get_none hg
  refine ⟨fun now key c ts d hg => ⟨hhit now key c ts d hg, hexp now key c ts d hg⟩,
    hmiss, fun now key d c => getKey_setKey_self c key (now, d), ?_⟩
  intro oracle oracle2 oracle3 t0 t1 t2 q c data hor hempty hle hgt
  have h1 : yahoo_search oracle t0 q c
      = (Except.ok data, cache_set t0 (yhKey q) data c, 1) := by
    unfold yahoo_search
    rw [hmiss t0 (yhKey q) c hempty, hor]
  have hg1 : getKey (cache_set t0 (yhKey q) data c) (yhKey q) = some (t0, data) :=
    getKey_setKey_self c (yhKey q) (t0, data)
  have h2 : yahoo_search oracle2 t1 q (cache_set t0 (yhKey q) data c)
      = (Except.ok data, cache_set t0 (yhKey q) data c, 0) := by
    unfold yahoo_search
    rw [hhit t1 (yhKey q) _ t0 data hg1 hle]
  have h3 : (yahoo_search oracle3 t2 q (cache_set t0 (yhKey q) data c)).2.2 = 1 := by
    unfold yahoo_search
    rw [hexp t2 (yhKey q) _ t0 data hg1 hgt]
    cases oracle3 q <;> rfl
  rw [h1]
  exact ⟨rfl, by rw [h2], by rw [h2], h3⟩

theorem c3_cache_ttl_witness :
    (yahoo_search (fun _ => some []) 0 "NVDA" []).2.2 = 1 ∧
    (yahoo_search (fun _ => none) 900 "NVDA"
      (yahoo_search (fun _ => some []) 0 "NVDA" []).2.1).2.2 = 0 ∧
    (yahoo_search (fun _ => none) 901 "NVDA"
      (yahoo_search (fun _ => some []) 0 "NVDA" []).2.1).2.2 = 1 := by
  have h := (c3_cache_ttl.2.2.2) (fun _ => some []) (fun _ => none) (fun _ => none)
    0 900 901 "NVDA" [] [] rfl rfl (by decide) (by decide)
  exact ⟨h.1, h.2.1, h.2.2.2⟩

/-! ## Claim C1 -/

/-- The oracle for the C1 scenario: the search backend knows `AAPL`. -/
def c1_oracle : String → Option SearchResponse :=
  fun q => if q = "AAPL" then some [⟨"AAPL", none, none, none, some "EQUITY"⟩] else none

/-- Claim C1 counterexample: the two lookup paths do not use separate
`symbol:`/`name:` cache namespaces.  After a symbol verification of
`AAPL` (one external call), a name resolution of the same string against
an always-failing backend still succeeds, answered entirely from the
shared cache entry (`yh:AAPL`) with zero external calls — so a prior
symbol verification of `s` does satisfy a name resolution of `s` from
cache. -/
theorem c1_counterexample :
    (verify_symbol c1_oracle 0 "AAPL" []).1
      = some ⟨"AAPL", none, none, none, some "EQUITY"⟩ ∧
    (verify_symbol c1_oracle 0 "AAPL" []).2.2 = 1 ∧
    (resolve_name (fun _ => none) 10 "AAPL" (verify_symbol c1_oracle 0 "AAPL" []).2.1)
      = (some ⟨"AAPL", none, none, none, some "EQUITY"⟩,
         (verify_symbol c1_oracle 0 "AAPL" []).2.1, 0) := by
  decide

/-- Claim C1 amended: `verify_symbol` and `resolve_name` share one cache
namespace: both read and write the entry `yh:` + term through
`yahoo_search`.  In both directions: a successful symbol verification of
`s` on a cache miss performs one external call and stores the response
under `yh:` + `s`, and any later name resolution of `s` within the TTL
then performs no external call and selects its answer from that very
response; conversely, a successful name resolution of `s` on a cache miss
performs one external call and stores the response under the same key,
and any later symbol verification of `s` within the TTL performs no
external call and selects its answer from that response. -/
theorem c1_shared_cache (oracle oracle2 : String → Option SearchResponse)
    (now now2 : Int) (s : String) (c : Cache) (resp : SearchResponse)
    (hor : oracle s = some resp) (hmiss : getKey c (yhKey s) = none)
    (hfresh : now2 - now ≤ TTL) :
    (verify_symbol oracle now s c).2.2 = 1 ∧
    getKey (verify_symbol oracle now s c).2.1 (yhKey s) = some (now, resp) ∧
    (resolve_name oracle2 now2 s (verify_symbol oracle now s c).2.1).2.2 = 0 ∧
    (resolve_name oracle2 now2 s (verify_symbol oracle now s c).2.1).1
      = (resp.find? (fun q =>
          match q.quoteType with
          | some t => nameTypes.contains t
          | none => false)).map mkVerified ∧
    (resolve_name oracle now s c).2.2 = 1 ∧
    getKey (resolve_name oracle now s c).2.1 (yhKey s) = some (now, resp) ∧
    (verify_symbol oracle2 now2 s (resolve_name oracle now s c).2.1).2.2 = 0 ∧
    (verify_symbol oracle2 now2 s (resolve_name oracle now s c).2.1).1
      = (resp.find? (fun q => strUpper q.symbol == strUpper s)).map mkVerified := by
  have hcg : cache_get now (yhKey s) c = (none, c) := cache_get_none hmiss
  have h1 : yahoo_search oracle now s c
      = (Except.ok resp, cache_set now (yhKey s) resp c, 1) := by
    unfold yahoo_search
    rw [hcg, hor]
  have h2 : verify_symbol oracle now s c
      = ((resp.find? (fun q => strUpper q.symbol == strUpper s)).map mkVerified,
         cache_set now (yhKey s) resp c, 1) := by
    unfold verify_symbol
    rw [h1]
  have h2r : resolve_name oracle now s c
      = ((resp.find? (fun q =>
            match q.quoteType with
            | some t => nameTypes.contains t
            | none => false)).map mkVerified,
         cache_set now (yhKey s) resp c, 1) := by
    unfold resolve_name
    rw [h1]
  have hg1 : getKey (cache_set now (yhKey s) resp c) (yhKey s) = some (now, resp) :=
    getKey_setKey_self c (yhKey s) (now, resp)
  have hcg2 : cache_get now2 (yhKey s) (cache_set now (yhKey s) resp c)
      = (some resp, cache_set now (yhKey s) resp c) := by
    rw [cache_get_some hg1, if_neg (not_lt.2 hfresh)]
  have h3 : yahoo_search oracle2 now2 s (cache_set now (yhKey s) resp c)
      = (Except.ok resp, cache_set now (yhKey s) resp c, 0) := by
    unfold yahoo_search
    rw [hcg2]
  rw [h2, h2r]
  refine ⟨rfl, hg1, ?_, ?_, rfl, hg1, ?_, ?_⟩
  · show (resolve_name oracle2 now2 s (cache_set now (yhKey s) resp c)).2.2 = 0
    unfold resolve_name
    rw [h3]
  · show (resolve_name oracle2 now2 s (cache_set now (yhKey s) resp c)).1 = _
    unfold resolve_name
    rw [h3]
  · show (verify_symbol oracle2 now2 s (cache_set now (yhKey s) resp c)).2.2 = 0
    unfold verify_symbol
    rw [h3]
  · show (verify_symbol oracle2 now2 s (cache_set now (yhKey s) resp c)).1 = _
    unfold verify_symbol
    rw [h3]

theorem c1_shared_cache_witness :
    (verify_symbol c1_oracle 0 "AAPL" []).2.2 = 1 ∧
    (resolve_name (fun _ => none) 10 "AAPL"
      (verify_symbol c1_oracle 0 "AAPL" []).2.1).2.2 = 0 ∧
    (resolve_name c1_oracle 0 "AAPL" []).2.2 = 1 ∧
    (verify_symbol (fun _ => none) 10 "AAPL"
      (resolve_name c1_oracle 0 "AAPL" []).2.1).2.2 = 0 := by
  have h := c1_shared_cache c1_oracle (fun _ => none) 0 10 "AAPL" []
    [⟨"AAPL", none, none, none, some "EQUITY"⟩] rfl rfl (by decide)
  exact ⟨h.1, h.2.2.1, h.2.2.2.2.1, h.2.2.2.2.2.2.1⟩

/-! ## Claim C6 -/

/-- Claim C6 counterexample to its "cache left unchanged" conjunct: a
failed lookup is not always a cache no-op — when the key holds an already
expired entry, `cache_get` lazily pops it before the external call fails,
so the cache does change (observably only in its internal dictionary, not
in any future read; see the amended theorem). -/
theorem c6_counterexample :
    (verify_symbol (fun _ => none) 1000 "AA" [("yh:AA", (0, []))])
      = (none, [], 1) ∧
    ([("yh:AA", ((0 : Int), ([] : SearchResponse)))] : Cache) ≠ [] := by
  decide

/-- Claim C6 amended: when the external search for a symbol fails, times
out, or returns a non-success status on a cache miss, `verify_symbol`
(and likewise `resolve_name`) returns `none` for that input — the failure
is swallowed, not propagated; no cache entry is added or refreshed
(the only possible change is the lazy removal of an already-expired entry
for that key, which no read at the current or any later time can
observe); afterwards the key is absent, so every subsequent call for the
same symbol performs the external query again (no negative caching).
Within a Discover batch, the response is determined by the per-symbol
outcomes alone, so one symbol's failure leaves every other symbol's
result unchanged. -/
theorem c6_no_negative_caching (oracle : String → Option SearchResponse)
    (now : Int) (s : String) (c : Cache)
    (hfail : oracle s = none) (hmiss : (cache_get now (yhKey s) c).1 = none) :
    (verify_symbol oracle now s c).1 = none ∧
    (verify_symbol oracle now s c).2.2 = 1 ∧
    (verify_symbol oracle now s c).2.1 = (cache_get now (yhKey s) c).2 ∧
    getKey (verify_symbol oracle now s c).2.1 (yhKey s) = none ∧
    (∀ k, k ≠ yhKey s →
      getKey (verify_symbol oracle now s c).2.1 k = getKey c k) ∧
    (∀ (t : Int) (k : String), now ≤ t →
      (cache_get t k (verify_symbol oracle now s c).2.1).1 = (cache_get t k c).1) ∧
    (∀ (oracle2 : String → Option SearchResponse) (t : Int),
      (verify_symbol oracle2 t s (verify_symbol oracle now s c).2.1).2.2 = 1) ∧
    (resolve_name oracle now s c).1 = none ∧
    (resolve_name oracle now s c).2.1 = (cache_get now (yhKey s) c).2 ∧
    (∀ (f g : String → Option VerifiedSymbol) (b : Bool) (stories : List N8nStory),
      (∀ x, x ≠ s → f x = g x) → f s = none → g s = none →
      discover_n8n f b stories = discover_n8n g b stories) := by
  have hys : yahoo_search oracle now s c
      = (Except.error (), (cache_get now (yhKey s) c).2, 1) := by
    unfold yahoo_search
    cases hcg : cache_get now (yhKey s) c with
    | mk r c1 =>
      cases r with
      | none => rw [hfail]
      | some hit => rw [hcg] at hmiss; exact absurd hmiss (by simp)
  have hvs : verify_symbol oracle now s c
      = (none, (cache_get now (yhKey s) c).2, 1) := by
    unfold verify_symbol
    rw [hys]
  have hrn : resolve_name oracle now s c
      = (none, (cache_get now (yhKey s) c).2, 1) := by
    unfold resolve_name
    rw [hys]
  -- the two possible shapes of the post-miss cache
  have hshape : (getKey c (yhKey s) = none ∧ (cache_get now (yhKey s) c).2 = c) ∨
      (∃ ts d, getKey c (yhKey s) = some (ts, d) ∧ now - ts > TTL ∧
        (cache_get now (yhKey s) c).2 = eraseKey c (yhKey s)) := by
    cases hg : getKey c (yhKey s) with
    | none => exact Or.inl ⟨rfl, by rw [cache_get_none hg]⟩
    | some tsd =>
      obtain ⟨ts, d⟩ := tsd
      by_cases h : now - ts > TTL
      · exact Or.inr ⟨ts, d, rfl, h, by rw [cache_get_some hg, if_pos h]⟩
      · rw [cache_get_some hg, if_neg h] at hmiss
        exact absurd hmiss (by simp)
  have hafter : getKey (cache_get now (yhKey s) c).2 (yhKey s) = none := by
    rcases hshape with ⟨hg, he⟩ | ⟨ts, d, _, _, he⟩
    · rw [he, hg]
    · rw [he, getKey_eraseKey_self]
  refine ⟨by rw [hvs], by rw [hvs], by rw [hvs], by rw [hvs]; exact hafter,
    ?_, ?_, ?_, by rw [hrn], by rw [hrn], ?_⟩
  · intro k hk
    rw [hvs]
    dsimp only
    rcases hshape with ⟨_, he⟩ | ⟨ts, d, _, _, he⟩
    · rw [he]
    · rw [he, getKey_eraseKey_ne c (yhKey s) k hk]
  · intro t k hnt
    rw [hvs]
    dsimp only
    rcases hshape with ⟨_, he⟩ | ⟨ts, d, hg, hgt, he⟩
    · rw [he]
    · rw [he]
      by_cases hk : k = yhKey s
      · subst hk
        rw [cache_get_none (getKey_eraseKey_self c (yhKey s)), cache_get_some hg,
          if_pos (by linarith : t - ts > TTL)]
      · cases hgk : getKey c k with
        | none =>
          rw [cache_get_none (by rw [getKey_eraseKey_ne c (yhKey s) k hk]; exact hgk),
            cache_get_none hgk]
        | some tsd2 =>
          obtain ⟨ts2, d2⟩ := tsd2
          rw [cache_get_some (by rw [getKey_eraseKey_ne c (yhKey s) k hk]; exact hgk),
            cache_get_some hgk]
          by_cases httl : t - ts2 > TTL
          · rw [if_pos httl, if_pos httl]
          · rw [if_neg httl, if_neg httl]
  · intro oracle2 t
    rw [hvs]
    dsimp only
    have hcg3 : cache_get t (yhKey s) (cache_get now (yhKey s) c).2
        = (none, (cache_get now (yhKey s) c).2) := cache_get_none hafter
    unfold verify_symbol yahoo_search
    rw [hcg3]
    cases oracle2 s <;> rfl
  · intro f g b stories hfg hf hg
    have hfun : f = g := by
      funext x
      by_cases hx : x = s
      · rw [hx, hf, hg]
      · exact hfg x hx
    rw [hfun]

theorem c6_no_negative_caching_witness :
    (verify_symbol (fun _ => none) 5 "TSLA" []).1 = none ∧
    (verify_symbol (fun _ => none) 5 "TSLA" []).2.2 = 1 :=
  ⟨(c6_no_negative_caching (fun _ => none) 5 "TSLA" [] rfl rfl).1,
   (c6_no_negative_caching (fun _ => none) 5 "TSLA" [] rfl rfl).2.1⟩

end TickerDiscovery
